import Mathlib

/-!
Verification of the core of the Equihash solver in equi_miner.h.

The development shallowly embeds the data model and the operations of the
solver: compile-time geometry constants, the bit-packed tree node, the
per-layer hash-size descriptor (htlayout), the bucket counters (getslot,
getnslots), the slot-insertion step shared by the digit engines, the
array-form collision finder (collisiondata), and the solution
reconstruction (orderindices, listindices0, listindices1, candidate).

Machine integers are modelled as Nat with explicit truncation where the
source relies on wrap-around or bit-field width: a u32 computation that can
exceed 2 ^ 32 carries an explicit mod, a bit-field assignment truncates to
the field width, and the uchar counters of the collision finder carry an
explicit mod 256.

The source is compiled with XINTREE defined (the non-XINTREE branches of
the digit engines contain #error directives), so getxhash0 and getxhash1
read the rest bits cached in the tree node.  RESTBITS has its default
value 4; the digit bit width (DIGITBITS, written digitbits below) stays a
parameter, with the supported geometries BUCKBITS = 12, 16, 20.
-/

/-- RESTBITS, the default value 4 from equi_miner.h. -/
def RESTBITS : Nat := 4

/-- BUCKBITS = DIGITBITS - RESTBITS. -/
def BUCKBITS (digitbits : Nat) : Nat := digitbits - RESTBITS

/-- NBUCKETS = 1 << BUCKBITS. -/
def NBUCKETS (digitbits : Nat) : Nat := 2 ^ BUCKBITS digitbits

/-- SLOTBITS = RESTBITS + 1 + 1. -/
def SLOTBITS : Nat := RESTBITS + 1 + 1

/-- NSLOTS = 1 << SLOTBITS. -/
def NSLOTS : Nat := 2 ^ SLOTBITS

/-- XFULL = NSLOTS / 4, the per-xhash slot cap of the collision finder. -/
def XFULL : Nat := NSLOTS / 4

/-- SLOTMASK = NSLOTS - 1. -/
def SLOTMASK : Nat := NSLOTS - 1

/-- NRESTS = 1 << RESTBITS, the number of rest-bit values. -/
def NRESTS : Nat := 2 ^ RESTBITS

/-- MAXSOLS = 8, the capacity of the sols array. -/
def MAXSOLS : Nat := 8

/-- Tree node: bit fields bucketid (BUCKBITS wide), slotid0 and slotid1
(SLOTBITS wide), and the XINTREE rest-bits cache xhash (RESTBITS wide).
Fields are Nats; writes that truncate carry explicit mods. -/
structure tree where
  bucketid : Nat
  slotid0 : Nat
  slotid1 : Nat
  xhash : Nat
deriving DecidableEq, Repr

/-- Embedding of tree::getindex: (bucketid << SLOTBITS) | slotid0, a u32
expression, hence the explicit mod 2 ^ 32. -/
def tree.getindex (t : tree) : Nat :=
  ((t.bucketid <<< SLOTBITS) ||| t.slotid0) % 2 ^ 32

/-- Embedding of tree::setindex: slotid0 = idx & SLOTMASK and
bucketid = idx >> SLOTBITS; each bit-field assignment truncates to the
field width (SLOTBITS resp. BUCKBITS bits). -/
def tree.setindex (digitbits : Nat) (t : tree) (idx : Nat) : tree :=
  { t with
    slotid0 := (idx &&& SLOTMASK) % 2 ^ SLOTBITS
    bucketid := (idx >>> SLOTBITS) % 2 ^ BUCKBITS digitbits }

/-- Claim C7: for every index below 2 ^ (BUCKBITS + SLOTBITS), setindex
followed by getindex returns the index unchanged, and the raw-hash index
space 2 ^ (digitbits + 1) fits below that bound.  The geometry bounds
4 <= digitbits <= 26 cover every supported build (digitbits is 16, 20
or 24). -/
theorem tree_setindex_getindex_roundtrip (digitbits : Nat) (t : tree) (idx : Nat)
    (hD : 4 ≤ digitbits) (hD' : digitbits ≤ 26)
    (hidx : idx < 2 ^ (BUCKBITS digitbits + SLOTBITS)) :
    (t.setindex digitbits idx).getindex = idx ∧
      2 ^ (digitbits + 1) ≤ 2 ^ (BUCKBITS digitbits + SLOTBITS) := by
  have hBS : BUCKBITS digitbits + SLOTBITS = digitbits + 2 := by
    unfold BUCKBITS SLOTBITS RESTBITS
    omega
  have hlt : idx < 2 ^ 28 := by
    calc idx < 2 ^ (BUCKBITS digitbits + SLOTBITS) := hidx
      _ ≤ 2 ^ 28 := by
        apply Nat.pow_le_pow_right (by norm_num)
        omega
  constructor
  · unfold tree.getindex tree.setindex
    have hmask : SLOTMASK = 2 ^ 6 - 1 := by decide
    have hslot6 : SLOTBITS = 6 := by decide
    simp only [hmask, hslot6, Nat.and_pow_two_sub_one_eq_mod, Nat.mod_mod,
      Nat.shiftRight_eq_div_pow, Nat.shiftLeft_eq]
    have hdivlt : idx / 2 ^ 6 < 2 ^ BUCKBITS digitbits := by
      apply Nat.div_lt_of_lt_mul
      calc idx < 2 ^ (digitbits + 2) := hBS ▸ hidx
        _ = 2 ^ 6 * 2 ^ BUCKBITS digitbits := by
          rw [← pow_add]
          congr 1
          unfold BUCKBITS RESTBITS
          omega
    rw [Nat.mod_eq_of_lt hdivlt, Nat.mul_comm (idx / 2 ^ 6) (2 ^ 6),
      ← Nat.mul_add_lt_is_or (Nat.mod_lt _ (by norm_num)) (idx / 2 ^ 6)]
    have h64 : (2 : Nat) ^ 6 = 64 := by norm_num
    have h32 : (2 : Nat) ^ 32 = 4294967296 := by norm_num
    rw [h64, h32]
    have h28 : idx < 268435456 := by
      have : (2 : Nat) ^ 28 = 268435456 := by norm_num
      omega
    omega
  · apply Nat.pow_le_pow_right (by norm_num)
    omega

/-- Witness for claim C7 at digitbits = 20 and a concrete index. -/
theorem tree_setindex_getindex_roundtrip_witness :
    (4 ≤ 20 ∧ 20 ≤ 26 ∧ 123456 < 2 ^ (BUCKBITS 20 + SLOTBITS)) ∧
      ((tree.mk 0 0 0 0).setindex 20 123456).getindex = 123456 ∧
        2 ^ (20 + 1) ≤ 2 ^ (BUCKBITS 20 + SLOTBITS) :=
  ⟨by decide,
    tree_setindex_getindex_roundtrip 20 (tree.mk 0 0 0 0) 123456
      (by decide) (by decide) (by decide)⟩

/-- Embedding of hashsize: size in bytes of the hash stored in round r.
The xintree flag selects between the XINTREE and non-XINTREE branch of the
#ifdef.  With wn = digitbits * (wk + 1) and r <= wk the u32 subtraction
never wraps, so Nat subtraction is faithful there. -/
def hashsize (xintree : Bool) (wn digitbits r : Nat) : Nat :=
  let hashbits := if xintree then wn - (r + 1) * digitbits
    else wn - (r + 1) * digitbits + RESTBITS
  (hashbits + 7) / 8

/-- Embedding of hashwords. -/
def hashwords (bytes : Nat) : Nat := (bytes + 3) / 4

/-- Record of the per-layer descriptor htlayout (the hta handle is not
part of the numeric state). -/
structure htlayout where
  prevhashunits : Nat
  nexthashunits : Nat
  dunits : Nat
  prevbo : Nat
  nextbo : Nat
deriving Repr

/-- Embedding of the htlayout constructor for layer r: prevhashunits and
dunits start at 0, nextbo is the byte offset in the first word, and for
r > 0 the previous-layer values and dunits = prevhashunits - nexthashunits
are filled in (u32 subtraction; it never wraps in any supported
geometry, as proved below). -/
def mkhtlayout (xintree : Bool) (wn digitbits r : Nat) : htlayout :=
  let nexthashbytes := hashsize xintree wn digitbits r
  let nexthashunits := hashwords nexthashbytes
  let nextbo := nexthashunits * 4 - nexthashbytes
  if r ≠ 0 then
    let prevhashbytes := hashsize xintree wn digitbits (r - 1)
    let prevhashunits := hashwords prevhashbytes
    let prevbo := prevhashunits * 4 - prevhashbytes
    { prevhashunits := prevhashunits, nexthashunits := nexthashunits,
      dunits := prevhashunits - nexthashunits, prevbo := prevbo, nextbo := nextbo }
  else
    { prevhashunits := 0, nexthashunits := nexthashunits,
      dunits := 0, prevbo := 0, nextbo := nextbo }

/-- Claim C8: in every supported geometry (digitbits 16, 20 or 24, i.e.
BUCKBITS 12, 16 or 20 with RESTBITS 4) and for every layer 1 <= r <= wk,
the htlayout descriptor has dunits = prevhashunits - nexthashunits with
nexthashunits <= prevhashunits <= nexthashunits + 1, so dunits is 0 or 1.
Both build modes (xintree on or off) are covered. -/
theorem htlayout_dunits_small (xintree : Bool) (wn digitbits wk r : Nat)
    (hwn : wn = digitbits * (wk + 1))
    (hsupp : digitbits = 16 ∨ digitbits = 20 ∨ digitbits = 24)
    (hr : 1 ≤ r) (hrwk : r ≤ wk) :
    (mkhtlayout xintree wn digitbits r).dunits =
        (mkhtlayout xintree wn digitbits r).prevhashunits -
          (mkhtlayout xintree wn digitbits r).nexthashunits ∧
      (mkhtlayout xintree wn digitbits r).nexthashunits ≤
        (mkhtlayout xintree wn digitbits r).prevhashunits ∧
      (mkhtlayout xintree wn digitbits r).dunits ≤ 1 := by
  have hd : 16 ≤ digitbits := by omega
  have hd' : digitbits ≤ 32 := by omega
  obtain ⟨m, hm⟩ : ∃ m, wk + 1 = r + (m + 1) := ⟨wk - r, by omega⟩
  have hwn' : wn = r * digitbits + (digitbits * m + digitbits) := by
    rw [hwn, hm]
    ring
  have hexp : (r + 1) * digitbits = r * digitbits + digitbits := by ring
  have hsub1 : wn - r * digitbits = digitbits * m + digitbits := by omega
  have hsub2 : wn - (r + 1) * digitbits = digitbits * m := by omega
  have hrne : ¬ r = 0 := by omega
  have hrsub : r - 1 + 1 = r := by omega
  have hproj : mkhtlayout xintree wn digitbits r =
      { prevhashunits := hashwords (hashsize xintree wn digitbits (r - 1)),
        nexthashunits := hashwords (hashsize xintree wn digitbits r),
        dunits := hashwords (hashsize xintree wn digitbits (r - 1)) -
          hashwords (hashsize xintree wn digitbits r),
        prevbo := hashwords (hashsize xintree wn digitbits (r - 1)) * 4 -
          hashsize xintree wn digitbits (r - 1),
        nextbo := hashwords (hashsize xintree wn digitbits r) * 4 -
          hashsize xintree wn digitbits r } := by
    simp [mkhtlayout, hrne]
  rw [hproj]
  refine ⟨rfl, ?_, ?_⟩ <;>
    · dsimp only
      cases xintree <;>
        · simp only [hashsize, hashwords, RESTBITS, hrsub, Bool.false_eq_true, if_true,
            if_false, ite_true, ite_false]
          omega

/-- Witness for claim C8 at the production geometry wn = 200, wk = 9,
digitbits = 20, layer r = 2, with xintree on. -/
theorem htlayout_dunits_small_witness :
    (200 = 20 * (9 + 1) ∧ (20 = 16 ∨ 20 = 20 ∨ 20 = 24) ∧ 1 ≤ 2 ∧ 2 ≤ 9) ∧
      ((mkhtlayout true 200 20 2).dunits =
          (mkhtlayout true 200 20 2).prevhashunits -
            (mkhtlayout true 200 20 2).nexthashunits ∧
        (mkhtlayout true 200 20 2).nexthashunits ≤
          (mkhtlayout true 200 20 2).prevhashunits ∧
        (mkhtlayout true 200 20 2).dunits ≤ 1) :=
  ⟨by norm_num,
    htlayout_dunits_small true 200 20 9 2 (by norm_num) (by norm_num)
      (by norm_num) (by norm_num)⟩

/-- Embedding of the helper min from equi_miner.h: a < b ? a : b. -/
def minu32 (a b : Nat) : Nat := if a < b then a else b

/-- Slot contents: the tree node attr and the stored hash words. -/
structure slotData where
  attr : tree
  hash : List Nat
deriving DecidableEq, Repr

/-- State touched by slot reservation: the per-parity per-bucket insertion
counters nslots[2][NBUCKETS], the overflow counter bfull, and the slot
arena indexed by layer, bucket and slot. -/
structure digitState where
  nslots : Nat → Nat → Nat
  bfull : Nat
  arena : Nat → Nat → Nat → slotData

/-- Embedding of equi::getslot: fetch-add on nslots[r&1][bucketi],
returning the old value. -/
def getslot (st : digitState) (r bucketi : Nat) : Nat × digitState :=
  (st.nslots (r % 2) bucketi,
    { st with nslots := fun p b =>
        if p = r % 2 ∧ b = bucketi then st.nslots p b + 1 else st.nslots p b })

/-- Embedding of equi::getnslots: read nslots[r&1][bid] clamped to NSLOTS
with the helper min, then reset the counter to 0. -/
def getnslots (st : digitState) (r bid : Nat) : Nat × digitState :=
  (minu32 (st.nslots (r % 2) bid) NSLOTS,
    { st with nslots := fun p b =>
        if p = r % 2 ∧ b = bid then 0 else st.nslots p b })

/-- Claim C4: getnslots returns the minimum of the bucket counter and
NSLOTS and resets the counter to 0, so an immediately repeated call on the
same bucket returns 0. -/
theorem getnslots_drains (st : digitState) (r bid : Nat) :
    (getnslots st r bid).1 = min (st.nslots (r % 2) bid) NSLOTS ∧
      ((getnslots st r bid).2.nslots (r % 2) bid = 0 ∧
        (getnslots (getnslots st r bid).2 r bid).1 = 0) := by
  refine ⟨?_, ?_, ?_⟩
  · show minu32 (st.nslots (r % 2) bid) NSLOTS = _
    unfold minu32
    rw [Nat.min_def]
    split <;> split <;> omega
  · show (if r % 2 = r % 2 ∧ bid = bid then 0 else st.nslots (r % 2) bid) = 0
    simp
  · show minu32 (if r % 2 = r % 2 ∧ bid = bid then 0 else st.nslots (r % 2) bid) NSLOTS = 0
    simp [minu32, NSLOTS, SLOTBITS, RESTBITS]

/-- Embedding of the slot-reservation fragment shared by digit0, digitodd
and digiteven: reserve a slot with getslot; if the returned index is at
least NSLOTS, count bfull and drop the payload, otherwise write the
payload into the arena at (r, bucketi, slot). -/
def tryInsert (st : digitState) (r bucketi : Nat) (payload : slotData) : digitState :=
  let res := getslot st r bucketi
  if NSLOTS ≤ res.1 then { res.2 with bfull := res.2.bfull + 1 }
  else { res.2 with arena := fun l b s =>
    if l = r ∧ b = bucketi ∧ s = res.1 then payload else res.2.arena l b s }

/-- Claim C5: when the reserved slot index is NSLOTS or more (in
particular when the bucket already holds exactly NSLOTS written slots),
the candidate slot is dropped: bfull is incremented, the arena is
unchanged, and only the counter moves on. -/
theorem tryInsert_full_drops (st : digitState) (r bucketi : Nat) (payload : slotData)
    (hfull : NSLOTS ≤ st.nslots (r % 2) bucketi) :
    (tryInsert st r bucketi payload).bfull = st.bfull + 1 ∧
      (tryInsert st r bucketi payload).arena = st.arena ∧
      (tryInsert st r bucketi payload).nslots (r % 2) bucketi =
        st.nslots (r % 2) bucketi + 1 := by
  unfold tryInsert getslot
  simp only [if_pos hfull]
  simp

/-- Witness for claim C5: a bucket whose counter sits at exactly NSLOTS
drops the next insertion. -/
theorem tryInsert_full_drops_witness :
    (NSLOTS ≤ (digitState.mk (fun _ _ => NSLOTS) 0
        (fun _ _ _ => slotData.mk (tree.mk 0 0 0 0) [])).nslots (0 % 2) 0) ∧
      ((tryInsert (digitState.mk (fun _ _ => NSLOTS) 0
          (fun _ _ _ => slotData.mk (tree.mk 0 0 0 0) [])) 0 0
          (slotData.mk (tree.mk 1 2 3 4) [5])).bfull =
        (digitState.mk (fun _ _ => NSLOTS) 0
          (fun _ _ _ => slotData.mk (tree.mk 0 0 0 0) [])).bfull + 1 ∧
      (tryInsert (digitState.mk (fun _ _ => NSLOTS) 0
          (fun _ _ _ => slotData.mk (tree.mk 0 0 0 0) [])) 0 0
          (slotData.mk (tree.mk 1 2 3 4) [5])).arena =
        (digitState.mk (fun _ _ => NSLOTS) 0
          (fun _ _ _ => slotData.mk (tree.mk 0 0 0 0) [])).arena ∧
      (tryInsert (digitState.mk (fun _ _ => NSLOTS) 0
          (fun _ _ _ => slotData.mk (tree.mk 0 0 0 0) [])) 0 0
          (slotData.mk (tree.mk 1 2 3 4) [5])).nslots (0 % 2) 0 =
        (digitState.mk (fun _ _ => NSLOTS) 0
          (fun _ _ _ => slotData.mk (tree.mk 0 0 0 0) [])).nslots (0 % 2) 0 + 1) :=
  ⟨Nat.le_refl _,
    tryInsert_full_drops
      (digitState.mk (fun _ _ => NSLOTS) 0
        (fun _ _ _ => slotData.mk (tree.mk 0 0 0 0) [])) 0 0
      (slotData.mk (tree.mk 1 2 3 4) [5]) (Nat.le_refl _)⟩

/-- Embedding of equi::orderindices: swap the two size-length halves when
the first entry of the left half exceeds the first entry of the right
half.  At every call site the array region is exactly 2 * size entries,
which the list halves model as drop/take. -/
def orderindices (indices : List Nat) (size : Nat) : List Nat :=
  if indices.getD size 0 < indices.getD 0 0 then
    indices.drop size ++ indices.take size
  else indices

mutual
/-- Embedding of equi::listindices0 over an arena A, where A r b s is the
tree node stored at layer r, bucket b, slot s (hta.trees[r][b][s].attr).
The function decrements r, reads the bucket of the previous layer,
recurses into the two child slots with listindices1 and canonicalizes
with orderindices; at r = 0 it emits the leaf index. -/
def listindices0 (A : Nat → Nat → Nat → tree) : Nat → tree → List Nat
  | 0, t => [t.getindex]
  | r + 1, t =>
    orderindices
      (listindices1 A r (A r t.bucketid t.slotid0) ++
        listindices1 A r (A r t.bucketid t.slotid1)) (2 ^ r)
/-- Embedding of equi::listindices1, the odd-layer companion of
listindices0.  The source only ever calls listindices1 at odd r (the
comment says to assume WK odd), so the r = 0 case is unreachable and
returns []. -/
def listindices1 (A : Nat → Nat → Nat → tree) : Nat → tree → List Nat
  | 0, _ => []
  | r + 1, t =>
    orderindices
      (listindices0 A r (A r t.bucketid t.slotid0) ++
        listindices0 A r (A r t.bucketid t.slotid1)) (2 ^ r)
end

/-- Insertion of a value into a sorted list, the auxiliary step of
sortIndices. -/
def insertSorted (x : Nat) : List Nat → List Nat
  | [] => [x]
  | y :: ys => if x ≤ y then x :: y :: ys else y :: insertSorted x ys

/-- Model of qsort(prf, PROOFSIZE, sizeof(u32), compu32): ascending sort
of the index list.  The ascending sorted permutation of a list is unique,
so any sorting algorithm is a faithful model; insertion sort keeps the
definition structurally recursive. -/
def sortIndices : List Nat → List Nat
  | [] => []
  | x :: xs => insertSorted x (sortIndices xs)

/-- Guard loop of equi::candidate: scanning adjacent entries, return
false as soon as prf[i] <= prf[i-1], i.e. true exactly on strictly
increasing lists. -/
def increasingChain : List Nat → Bool
  | x :: y :: rest => if x < y then increasingChain (y :: rest) else false
  | _ => true

/-- Embedding of equi::candidate: walk the tree (listindices1 at r = wk,
wk odd), sort a copy, reject unless the sorted copy is strictly
increasing (an equality means a duplicate index), else claim
soli = nsols++ and, when soli < MAXSOLS, store the re-walked index list
into sols[soli]. -/
def candidate (A : Nat → Nat → Nat → tree) (wk : Nat) (sols : List (List Nat))
    (nsols : Nat) (t : tree) : List (List Nat) × Nat :=
  if increasingChain (sortIndices (listindices1 A wk t)) then
    ((if nsols < MAXSOLS then sols.set nsols (listindices1 A wk t) else sols), nsols + 1)
  else (sols, nsols)

/-- Length preservation of orderindices. -/
theorem orderindices_length (l : List Nat) (s : Nat) :
    (orderindices l s).length = l.length := by
  unfold orderindices
  split
  · rw [List.length_append, List.length_drop, List.length_take, Nat.min_def]
    split <;> omega
  · rfl

/-- Membership preservation of orderindices. -/
theorem orderindices_mem (l : List Nat) (s y : Nat) :
    y ∈ orderindices l s ↔ y ∈ l := by
  unfold orderindices
  split
  · conv_rhs => rw [← List.take_append_drop s l]
    simp only [List.mem_append]
    tauto
  · exact Iff.rfl

/-- Behavior of orderindices on a region of exactly 2 * size entries:
the halves swap exactly when the left head exceeds the right head, and
afterwards the left head is at most the right head. -/
theorem orderindices_headD_le (l : List Nat) (size : Nat)
    (hsize : 0 < size) (hlen : l.length = 2 * size) :
    (l.getD size 0 < l.getD 0 0 → orderindices l size = l.drop size ++ l.take size) ∧
      (l.getD 0 0 ≤ l.getD size 0 → orderindices l size = l) ∧
      (orderindices l size).getD 0 0 ≤ (orderindices l size).getD size 0 := by
  have hdroplen : (l.drop size).length = size := by
    rw [List.length_drop]
    omega
  have hd0 : (l.drop size ++ l.take size).getD 0 0 = l.getD size 0 := by
    rw [List.getD_append _ _ _ _ (by omega), List.getD_eq_getElem?_getD,
      List.getElem?_drop, List.getD_eq_getElem?_getD, Nat.add_zero]
  have hds : (l.drop size ++ l.take size).getD size 0 = l.getD 0 0 := by
    rw [List.getD_append_right _ _ _ _ (by omega), hdroplen, Nat.sub_self,
      List.getD_eq_getElem?_getD, List.getElem?_take_of_lt hsize,
      List.getD_eq_getElem?_getD]
  refine ⟨?_, ?_, ?_⟩
  · intro h
    unfold orderindices
    rw [if_pos h]
  · intro h
    unfold orderindices
    rw [if_neg (by omega)]
  · unfold orderindices
    split
    · rw [hd0, hds]
      omega
    · omega

/-- Lengths of the reconstruction lists: listindices0 at even r and
listindices1 at odd r produce exactly 2 ^ r indices. -/
theorem listindices_length_parity (r : Nat) :
    (∀ (A : Nat → Nat → Nat → tree) t, r % 2 = 0 →
        (listindices0 A r t).length = 2 ^ r) ∧
      (∀ (A : Nat → Nat → Nat → tree) t, r % 2 = 1 →
        (listindices1 A r t).length = 2 ^ r) := by
  induction r with
  | zero =>
    exact ⟨fun A t _ => rfl, fun A t h => absurd h (by decide)⟩
  | succ r ih =>
    constructor
    · intro A t h
      have hr : r % 2 = 1 := by omega
      simp only [listindices0]
      rw [orderindices_length, List.length_append,
        ih.2 A (A r t.bucketid t.slotid0) hr, ih.2 A (A r t.bucketid t.slotid1) hr]
      ring
    · intro A t h
      have hr : r % 2 = 0 := by omega
      simp only [listindices1]
      rw [orderindices_length, List.length_append,
        ih.1 A (A r t.bucketid t.slotid0) hr, ih.1 A (A r t.bucketid t.slotid1) hr]
      ring

/-- Claim C6: orderindices swaps the two size-length halves exactly when
the first entry of the left half exceeds the first entry of the right
half and otherwise leaves the list unchanged, and after every internal
node of listindices0 and listindices1 (even r > 0 for listindices0, odd r
for listindices1, matching the call parities of the source) the first
index of the left half is at most the first index of the right half. -/
theorem orderindices_wagner_canonical :
    (∀ (l : List Nat) (size : Nat), 0 < size → l.length = 2 * size →
      (l.getD size 0 < l.getD 0 0 → orderindices l size = l.drop size ++ l.take size) ∧
        (l.getD 0 0 ≤ l.getD size 0 → orderindices l size = l) ∧
        (orderindices l size).getD 0 0 ≤ (orderindices l size).getD size 0) ∧
      (∀ (A : Nat → Nat → Nat → tree) r t, r % 2 = 1 →
        (listindices1 A r t).getD 0 0 ≤ (listindices1 A r t).getD (2 ^ (r - 1)) 0) ∧
      (∀ (A : Nat → Nat → Nat → tree) r t, r % 2 = 0 → 0 < r →
        (listindices0 A r t).getD 0 0 ≤ (listindices0 A r t).getD (2 ^ (r - 1)) 0) := by
  refine ⟨orderindices_headD_le, ?_, ?_⟩
  · intro A r t hodd
    match r, hodd with
    | r + 1, hodd =>
      have hr : r % 2 = 0 := by omega
      simp only [listindices1, Nat.add_sub_cancel]
      exact (orderindices_headD_le _ (2 ^ r) (Nat.pos_pow_of_pos r (by norm_num))
        (by rw [List.length_append, (listindices_length_parity r).1 A _ hr,
          (listindices_length_parity r).1 A _ hr]; ring)).2.2
  · intro A r t heven hpos
    match r, hpos with
    | r + 1, _ =>
      have hr : r % 2 = 1 := by omega
      simp only [listindices0, Nat.add_sub_cancel]
      exact (orderindices_headD_le _ (2 ^ r) (Nat.pos_pow_of_pos r (by norm_num))
        (by rw [List.length_append, (listindices_length_parity r).2 A _ hr,
          (listindices_length_parity r).2 A _ hr]; ring)).2.2

/-- Witness for claim C6 at a concrete list and a concrete arena node. -/
theorem orderindices_wagner_canonical_witness :
    ((0 < 2 ∧ ([3, 9, 1, 2] : List Nat).length = 2 * 2) ∧
      (([3, 9, 1, 2] : List Nat).getD 2 0 < ([3, 9, 1, 2] : List Nat).getD 0 0 →
        orderindices [3, 9, 1, 2] 2 = ([3, 9, 1, 2] : List Nat).drop 2 ++
          ([3, 9, 1, 2] : List Nat).take 2) ∧
      (([3, 9, 1, 2] : List Nat).getD 0 0 ≤ ([3, 9, 1, 2] : List Nat).getD 2 0 →
        orderindices [3, 9, 1, 2] 2 = [3, 9, 1, 2]) ∧
      (orderindices [3, 9, 1, 2] 2).getD 0 0 ≤ (orderindices [3, 9, 1, 2] 2).getD 2 0) ∧
      ((1 % 2 = 1) ∧
        (listindices1 (fun _ _ _ => tree.mk 0 0 0 0) 1 (tree.mk 0 0 0 0)).getD 0 0 ≤
          (listindices1 (fun _ _ _ => tree.mk 0 0 0 0) 1
            (tree.mk 0 0 0 0)).getD (2 ^ (1 - 1)) 0) :=
  ⟨⟨⟨by decide, by decide⟩,
      orderindices_wagner_canonical.1 [3, 9, 1, 2] 2 (by decide) (by decide)⟩,
    by decide,
    orderindices_wagner_canonical.2.1 (fun _ _ _ => tree.mk 0 0 0 0) 1
      (tree.mk 0 0 0 0) (by decide)⟩

/-- Every entry of a reconstruction list is the getindex of a layer-0
node of the arena (or, for listindices0 at r = 0, of the node handed
in, which at every call site is itself a layer-0 node). -/
theorem listindices_mem_leaf (r : Nat) :
    (∀ (A : Nat → Nat → Nat → tree) t y, y ∈ listindices0 A r t →
        (r = 0 ∧ y = t.getindex) ∨ ∃ b s, y = (A 0 b s).getindex) ∧
      (∀ (A : Nat → Nat → Nat → tree) t y, y ∈ listindices1 A r t →
        ∃ b s, y = (A 0 b s).getindex) := by
  induction r with
  | zero =>
    constructor
    · intro A t y hy
      left
      simp only [listindices0, List.mem_singleton] at hy
      exact ⟨rfl, hy⟩
    · intro A t y hy
      simp only [listindices1, List.not_mem_nil] at hy
  | succ r ih =>
    constructor
    · intro A t y hy
      right
      simp only [listindices0] at hy
      rw [orderindices_mem] at hy
      rcases List.mem_append.mp hy with h | h
      · exact ih.2 A _ y h
      · exact ih.2 A _ y h
    · intro A t y hy
      simp only [listindices1] at hy
      rw [orderindices_mem] at hy
      rcases List.mem_append.mp hy with h | h
      · rcases ih.1 A _ y h with ⟨hr0, hy0⟩ | h2
        · subst hr0
          exact ⟨t.bucketid, t.slotid0, hy0⟩
        · exact h2
      · rcases ih.1 A _ y h with ⟨hr0, hy0⟩ | h2
        · subst hr0
          exact ⟨t.bucketid, t.slotid1, hy0⟩
        · exact h2

/-- insertSorted inserts its element: the result is a permutation of the
element consed on. -/
theorem insertSorted_perm (x : Nat) (l : List Nat) :
    (insertSorted x l).Perm (x :: l) := by
  induction l with
  | nil => exact List.Perm.refl _
  | cons y ys ih =>
    unfold insertSorted
    split
    · exact List.Perm.refl _
    · exact (ih.cons y).trans (List.Perm.swap x y ys)

/-- sortIndices permutes its input. -/
theorem sortIndices_perm (l : List Nat) : (sortIndices l).Perm l := by
  induction l with
  | nil => exact List.Perm.refl _
  | cons x xs ih =>
    exact (insertSorted_perm x (sortIndices xs)).trans (ih.cons x)

/-- A strictly ascending chain has no duplicates. -/
theorem chain_lt_nodup (l : List Nat)
    (h : List.Chain' (fun a b => a < b) l) : l.Nodup :=
  (List.chain'_iff_pairwise.mp h).imp Nat.ne_of_lt

/-- The candidate guard accepts exactly the strictly increasing lists. -/
theorem increasingChain_iff (l : List Nat) :
    increasingChain l = true ↔ List.Chain' (fun a b => a < b) l := by
  induction l with
  | nil => simp [increasingChain]
  | cons x xs ih =>
    cases xs with
    | nil => simp [increasingChain]
    | cons y rest =>
      rw [List.chain'_cons, ← ih]
      by_cases hxy : x < y
      · simp [increasingChain, hxy]
      · simp [increasingChain, hxy]

/-- Claim C1 (amended): a solution recorded by candidate consists of
2 ^ wk pairwise-distinct leaf indices, each below any uniform bound B on
the layer-0 leaf encodings (in the solver B = 2 ^ (n + 1) by digit0 and
theorem tree_setindex_getindex_roundtrip); the recorded list is the
canonical Wagner-ordered walk, which need not be ascending.
Either the state is unchanged (rejected candidate), or nsols increments
and, when there is room, the walk is stored at index nsols. -/
theorem candidate_records_valid (A : Nat → Nat → Nat → tree) (wk : Nat)
    (sols : List (List Nat)) (nsols : Nat) (t : tree) (B : Nat)
    (hodd : wk % 2 = 1) (hB : ∀ b s, (A 0 b s).getindex < B) :
    candidate A wk sols nsols t = (sols, nsols) ∨
      ((candidate A wk sols nsols t).2 = nsols + 1 ∧
        ((nsols < MAXSOLS ∧
            (candidate A wk sols nsols t).1 = sols.set nsols (listindices1 A wk t)) ∨
          (MAXSOLS ≤ nsols ∧ (candidate A wk sols nsols t).1 = sols)) ∧
        (listindices1 A wk t).length = 2 ^ wk ∧
        (listindices1 A wk t).Nodup ∧
        ∀ y ∈ listindices1 A wk t, y < B) := by
  unfold candidate
  split
  · next hpass =>
    right
    refine ⟨rfl, ?_, ?_, ?_, ?_⟩
    · rcases Nat.lt_or_ge nsols MAXSOLS with h | h
      · exact Or.inl ⟨h, by simp only [if_pos h]⟩
      · exact Or.inr ⟨h, by simp only [if_neg (Nat.not_lt.mpr h)]⟩
    · exact (listindices_length_parity wk).2 A t hodd
    · exact ((sortIndices_perm (listindices1 A wk t)).nodup_iff).mp
        (chain_lt_nodup (sortIndices (listindices1 A wk t))
          ((increasingChain_iff (sortIndices (listindices1 A wk t))).mp hpass))
    · intro y hy
      obtain ⟨b, s, hbs⟩ := (listindices_mem_leaf wk).2 A t y hy
      rw [hbs]
      exact hB b s
  · exact Or.inl rfl

/-- Concrete arena for the claim C1 counterexample, wk = 3: every bucket
id is 0; layer-0 slot s encodes leaf index [0,5,1,2,3,4,6,7].getD s, and
each layer r >= 1 node at slot s points at child slots 2s and 2s + 1. -/
def exArena : Nat → Nat → Nat → tree
  | 0, _, s => tree.mk 0 ([0, 5, 1, 2, 3, 4, 6, 7].getD s 0) 0 0
  | _ + 1, _, s => tree.mk 0 (2 * s) (2 * s + 1) 0

/-- Bound on the leaf encodings of exArena. -/
theorem exArena_leaf_bound : ∀ b s, (exArena 0 b s).getindex < 2 ^ 21 := by
  intro b s
  have hv : [0, 5, 1, 2, 3, 4, 6, 7].getD s 0 ≤ 7 := by
    rcases s with _ | _ | _ | _ | _ | _ | _ | _ | s
    all_goals simp [List.getD]
  show (((0 : Nat) <<< SLOTBITS ||| [0, 5, 1, 2, 3, 4, 6, 7].getD s 0) % 2 ^ 32) < 2 ^ 21
  rw [Nat.zero_shiftLeft, Nat.zero_or]
  have h21 : (2 : Nat) ^ 21 = 2097152 := by norm_num
  have h32 : (2 : Nat) ^ 32 = 4294967296 := by norm_num
  rw [h21, h32]
  omega

/-- Counterexample to claim C1 as stated: candidate accepts and records
the proof [0, 5, 1, 2, 3, 4, 6, 7], which is not strictly increasing
(the recorded order is the canonical tree order, not the sorted order;
only the duplicate check uses the sorted copy). -/
theorem candidate_records_unsorted_counterexample :
    ((candidate exArena 3 (List.replicate MAXSOLS []) 0 (tree.mk 0 0 1 0)).2 = 1 ∧
      (candidate exArena 3 (List.replicate MAXSOLS []) 0 (tree.mk 0 0 1 0)).1.getD 0 [] =
        [0, 5, 1, 2, 3, 4, 6, 7]) ∧
      ¬ List.Chain' (fun a b => a < b)
        ((candidate exArena 3 (List.replicate MAXSOLS []) 0 (tree.mk 0 0 1 0)).1.getD 0 []) := by
  refine ⟨by decide, ?_⟩
  rw [← increasingChain_iff]
  decide

/-- Witness for claim C1 (amended) at the concrete arena exArena with
bound B = 2 ^ 21. -/
theorem candidate_records_valid_witness :
    (3 % 2 = 1 ∧ ∀ b s, (exArena 0 b s).getindex < 2 ^ 21) ∧
      (candidate exArena 3 (List.replicate MAXSOLS []) 0 (tree.mk 0 0 1 0) =
          (List.replicate MAXSOLS [], 0) ∨
        ((candidate exArena 3 (List.replicate MAXSOLS []) 0 (tree.mk 0 0 1 0)).2 = 0 + 1 ∧
          ((0 < MAXSOLS ∧
              (candidate exArena 3 (List.replicate MAXSOLS []) 0 (tree.mk 0 0 1 0)).1 =
                (List.replicate MAXSOLS []).set 0 (listindices1 exArena 3 (tree.mk 0 0 1 0))) ∨
            (MAXSOLS ≤ 0 ∧
              (candidate exArena 3 (List.replicate MAXSOLS []) 0 (tree.mk 0 0 1 0)).1 =
                List.replicate MAXSOLS [])) ∧
          (listindices1 exArena 3 (tree.mk 0 0 1 0)).length = 2 ^ 3 ∧
          (listindices1 exArena 3 (tree.mk 0 0 1 0)).Nodup ∧
          ∀ y ∈ listindices1 exArena 3 (tree.mk 0 0 1 0), y < 2 ^ 21)) :=
  ⟨⟨by decide, exArena_leaf_bound⟩,
    candidate_records_valid exArena 3 (List.replicate MAXSOLS []) 0 (tree.mk 0 0 1 0)
      (2 ^ 21) (by decide) exArena_leaf_bound⟩

/-- Claim C9: candidate increments nsols for every duplicate-free
candidate regardless of room, writes into sols only when the claimed
index is below MAXSOLS (so the write is in bounds and the sols array
keeps its MAXSOLS length), and the nsols counter can exceed MAXSOLS: a
duplicate-free candidate claimed at nsols = MAXSOLS leaves the array
untouched but pushes the counter past MAXSOLS. -/
theorem candidate_sols_bounded (A : Nat → Nat → Nat → tree) (wk : Nat)
    (sols : List (List Nat)) (nsols : Nat) (t : tree)
    (hlen : sols.length = MAXSOLS) :
    ((increasingChain (sortIndices (listindices1 A wk t)) = true →
        (candidate A wk sols nsols t).2 = nsols + 1) ∧
      (increasingChain (sortIndices (listindices1 A wk t)) = false →
        candidate A wk sols nsols t = (sols, nsols))) ∧
      (candidate A wk sols nsols t).1.length = MAXSOLS ∧
      (MAXSOLS ≤ nsols → (candidate A wk sols nsols t).1 = sols) ∧
      (nsols < MAXSOLS →
        (candidate A wk sols nsols t).1 = sols ∨
          (candidate A wk sols nsols t).1 = sols.set nsols (listindices1 A wk t)) ∧
      (increasingChain (sortIndices (listindices1 A wk t)) = true →
        MAXSOLS < (candidate A wk sols MAXSOLS t).2) := by
  unfold candidate
  split
  · next h =>
    refine ⟨⟨fun _ => rfl, fun hf => ?_⟩, ?_, ?_, ?_, fun _ => ?_⟩
    · rw [h] at hf
      exact Bool.noConfusion hf
    · show (if nsols < MAXSOLS then sols.set nsols (listindices1 A wk t) else sols).length = _
      split
      · rw [List.length_set]
        exact hlen
      · exact hlen
    · intro hge
      show (if nsols < MAXSOLS then sols.set nsols (listindices1 A wk t) else sols) = sols
      rw [if_neg (Nat.not_lt.mpr hge)]
    · intro hlt
      right
      show (if nsols < MAXSOLS then sols.set nsols (listindices1 A wk t) else sols) = _
      rw [if_pos hlt]
    · show MAXSOLS < (_, MAXSOLS + 1).2
      exact Nat.lt_succ_self MAXSOLS
  · next h =>
    refine ⟨⟨fun ht => absurd ht h, fun _ => rfl⟩, hlen, fun _ => rfl, fun _ => Or.inl rfl,
      fun ht => absurd ht h⟩

/-- Witness for claim C9 at the concrete arena exArena. -/
theorem candidate_sols_bounded_witness :
    (List.replicate MAXSOLS ([] : List Nat)).length = MAXSOLS ∧
      (((increasingChain (sortIndices (listindices1 exArena 3 (tree.mk 0 0 1 0))) = true →
          (candidate exArena 3 (List.replicate MAXSOLS []) 0 (tree.mk 0 0 1 0)).2 = 0 + 1) ∧
        (increasingChain (sortIndices (listindices1 exArena 3 (tree.mk 0 0 1 0))) = false →
          candidate exArena 3 (List.replicate MAXSOLS []) 0 (tree.mk 0 0 1 0) =
            (List.replicate MAXSOLS [], 0))) ∧
      (candidate exArena 3 (List.replicate MAXSOLS []) 0 (tree.mk 0 0 1 0)).1.length = MAXSOLS ∧
      (MAXSOLS ≤ 0 →
        (candidate exArena 3 (List.replicate MAXSOLS []) 0 (tree.mk 0 0 1 0)).1 =
          List.replicate MAXSOLS []) ∧
      (0 < MAXSOLS →
        (candidate exArena 3 (List.replicate MAXSOLS []) 0 (tree.mk 0 0 1 0)).1 =
            List.replicate MAXSOLS [] ∨
          (candidate exArena 3 (List.replicate MAXSOLS []) 0 (tree.mk 0 0 1 0)).1 =
            (List.replicate MAXSOLS []).set 0 (listindices1 exArena 3 (tree.mk 0 0 1 0))) ∧
      (increasingChain (sortIndices (listindices1 exArena 3 (tree.mk 0 0 1 0))) = true →
        MAXSOLS < (candidate exArena 3 (List.replicate MAXSOLS []) MAXSOLS (tree.mk 0 0 1 0)).2)) :=
  ⟨by decide,
    candidate_sols_bounded exArena 3 (List.replicate MAXSOLS []) 0 (tree.mk 0 0 1 0)
      (by decide)⟩

/-- State of the array-form collision finder collisiondata: the uchar
counters nxhashslots[NRESTS] (values stored mod 256) and the slot rows
xhashslots[NRESTS][XFULL].  The cursor fields (xx, n0, n1) are threaded
through return values below instead of being stored. -/
structure collisiondata where
  nxhashslots : List Nat
  xhashslots : List (List Nat)
deriving DecidableEq, Repr

/-- Embedding of collisiondata::clear: memset the counters to 0; the
slot rows keep their stale contents. -/
def collisiondata.clear (cd : collisiondata) : collisiondata :=
  { cd with nxhashslots := List.replicate NRESTS 0 }

/-- Finder state at the start of a bucket: calloc-zeroed rows, cleared
counters. -/
def cdInit : collisiondata :=
  collisiondata.clear
    ⟨List.replicate NRESTS 0, List.replicate NRESTS (List.replicate XFULL 0)⟩

/-- Embedding of collisiondata::addslot: read the uchar counter n1 and
post-increment it (mod 256); if n1 >= XFULL reject; else store s1 into
the row at position n1 and reset the cursor.  Returns the accept flag,
the new state, and n1 (the partner-loop bound). -/
def collisiondata.addslot (cd : collisiondata) (s1 xh : Nat) :
    Bool × collisiondata × Nat :=
  if XFULL ≤ cd.nxhashslots.getD xh 0 then
    (false,
      { cd with nxhashslots := cd.nxhashslots.set xh ((cd.nxhashslots.getD xh 0 + 1) % 256) },
      cd.nxhashslots.getD xh 0)
  else
    (true,
      { cd with
        nxhashslots := cd.nxhashslots.set xh ((cd.nxhashslots.getD xh 0 + 1) % 256),
        xhashslots := cd.xhashslots.set xh
          ((cd.xhashslots.getD xh []).set (cd.nxhashslots.getD xh 0) s1) },
      cd.nxhashslots.getD xh 0)

/-- Partner loop: while nextcollision() (n0 < n1) yield xx[n0++]; the
remaining count n1 - n0 acts as the structural fuel. -/
def drainAux (row : List Nat) : Nat → Nat → List Nat
  | _, 0 => []
  | n0, k + 1 => row.getD n0 0 :: drainAux row (n0 + 1) k

/-- Partners delivered for an accepted slot: the loop starts at n0 = 0
and stops at n1. -/
def collisionPartners (row : List Nat) (n0 n1 : Nat) : List Nat :=
  drainAux row n0 (n1 - n0)

/-- Per-bucket finder loop of digitodd and digiteven: feed slots
s1, s1 + 1, ... with the rest values of the list; for each accepted slot
record the partner list drained from the just-updated row.  Returns the
final state and the per-slot (accepted, partners) results. -/
def runFinderAux (cd : collisiondata) (s1 : Nat) : List Nat → collisiondata × List (Bool × List Nat)
  | [] => (cd, [])
  | x :: rest =>
    ((runFinderAux (cd.addslot s1 x).2.1 (s1 + 1) rest).1,
      ((cd.addslot s1 x).1,
        if (cd.addslot s1 x).1 then
          collisionPartners (((cd.addslot s1 x).2.1.xhashslots.getD x [])) 0
            (cd.addslot s1 x).2.2
        else []) ::
        (runFinderAux (cd.addslot s1 x).2.1 (s1 + 1) rest).2)

/-- Finder run over one bucket after clear, slots numbered from 0. -/
def runFinder (xs : List Nat) : collisiondata × List (Bool × List Nat) :=
  runFinderAux cdInit 0 xs

/-- Positions of the slots that carry rest value x, in insertion order:
the content the finder rows are expected to hold. -/
def restPositions (ms : List Nat) (x : Nat) : List Nat :=
  (List.range ms.length).filter (fun j => ms.getD j 0 == x)

/-- Invariant tying a finder state to the history ms of rest values fed
so far (slot ids 0, ..., ms.length - 1). -/
def cdInv (ms : List Nat) (cd : collisiondata) : Prop :=
  cd.nxhashslots.length = NRESTS ∧
    cd.xhashslots.length = NRESTS ∧
    (∀ x, x < NRESTS → cd.nxhashslots.getD x 0 = (ms.count x) % 256) ∧
    (∀ x, x < NRESTS → (cd.xhashslots.getD x []).length = XFULL) ∧
    (∀ x, x < NRESTS → ∀ k, k < ms.count x → k < XFULL →
      (cd.xhashslots.getD x []).getD k 0 = (restPositions ms x).getD k 0)

/-- getD after set at the written index. -/
theorem getD_set_self {α : Type} (l : List α) (i : Nat) (a d : α) (h : i < l.length) :
    (l.set i a).getD i d = a := by
  rw [List.getD_eq_getElem?_getD, List.getElem?_set_self h]
  rfl

/-- getD after set at a different index. -/
theorem getD_set_ne {α : Type} (l : List α) (i j : Nat) (a d : α) (h : i ≠ j) :
    (l.set i a).getD j d = l.getD j d := by
  rw [List.getD_eq_getElem?_getD, List.getElem?_set_ne h, ← List.getD_eq_getElem?_getD]

/-- Appending one rest value extends the expected row content by the new
slot id exactly when the rest value matches. -/
theorem restPositions_append (ms : List Nat) (y x : Nat) :
    restPositions (ms ++ [y]) x =
      restPositions ms x ++ (if y == x then [ms.length] else []) := by
  unfold restPositions
  have hgd : (ms ++ [y]).getD ms.length 0 = y := by
    rw [List.getD_append_right _ _ _ _ (Nat.le_refl _), Nat.sub_self]
    rfl
  have hlen : (ms ++ [y]).length = ms.length + 1 := by
    rw [List.length_append]
    rfl
  rw [hlen, List.range_succ, List.filter_append]
  congr 1
  · apply List.filter_congr
    intro j hj
    rw [List.mem_range] at hj
    rw [List.getD_append _ _ _ _ hj]
  · rw [List.filter_cons, hgd]
    cases hyx : y == x <;> simp

/-- The expected row content has one entry per matching rest value. -/
theorem restPositions_length (ms : List Nat) (x : Nat) :
    (restPositions ms x).length = ms.count x := by
  induction ms using List.reverseRecOn with
  | nil => rfl
  | append_singleton ms y ih =>
    rw [restPositions_append, List.length_append, ih, List.count_append,
      List.count_singleton]
    cases hyx : y == x <;> simp

/-- The partner loop yields the row entries at positions n0, ..., n1-1. -/
theorem drainAux_eq_map (row : List Nat) (k : Nat) :
    ∀ n0, drainAux row n0 k = (List.range' n0 k).map (fun i => row.getD i 0) := by
  induction k with
  | zero => intro n0; rfl
  | succ k ih =>
    intro n0
    simp [drainAux, List.range'_succ, ih]

/-- The initial finder state satisfies the invariant for the empty
history. -/
theorem cdInit_inv : cdInv [] cdInit := by
  have h16 : NRESTS = 16 := by norm_num [NRESTS, RESTBITS]
  refine ⟨by decide, by decide, ?_, ?_, ?_⟩
  · intro x hx
    rw [h16] at hx
    interval_cases x <;> rfl
  · intro x hx
    rw [h16] at hx
    interval_cases x <;> rfl
  · intro x hx k hk hk'
    simp [List.count_nil] at hk

/-- One step of the finder: feeding slot ms.length with rest value x from
a state satisfying the invariant for history ms accepts exactly when
fewer than XFULL earlier slots carried rest x, returns that count as the
partner bound, preserves the invariant, and (when accepted) delivers as
partners exactly the earlier slots with rest value x, in order. -/
theorem addslot_spec (ms : List Nat) (cd : collisiondata) (x : Nat)
    (hinv : cdInv ms cd) (hx : x < NRESTS) (hms : ms.length ≤ 255) :
    ((cd.addslot ms.length x).1 = true ↔ ms.count x < XFULL) ∧
      (cd.addslot ms.length x).2.2 = ms.count x ∧
      cdInv (ms ++ [x]) (cd.addslot ms.length x).2.1 ∧
      (ms.count x < XFULL →
        collisionPartners ((cd.addslot ms.length x).2.1.xhashslots.getD x []) 0
          (cd.addslot ms.length x).2.2 = restPositions ms x) := by
  obtain ⟨hcl, hxl, hcnt, hrowlen, hrow⟩ := hinv
  have hcle : ms.count x ≤ ms.length := List.count_le_length x ms
  have hstored : cd.nxhashslots.getD x 0 = ms.count x := by
    rw [hcnt x hx]
    exact Nat.mod_eq_of_lt (by omega)
  have hxc : x < cd.nxhashslots.length := by
    rw [hcl]
    exact hx
  have hxr : x < cd.xhashslots.length := by
    rw [hxl]
    exact hx
  have hcnt_x : (ms ++ [x]).count x = ms.count x + 1 := by
    rw [List.count_append, List.count_singleton_self]
  have hcnt_ne : ∀ y, y ≠ x → (ms ++ [x]).count y = ms.count y := by
    intro y hyx
    have hbeq : (x == y) = false := beq_eq_false_iff_ne.mpr (fun h => hyx h.symm)
    rw [List.count_append, List.count_singleton, hbeq]
    simp
  have hcounters : ∀ y, y < NRESTS →
      (cd.nxhashslots.set x ((ms.count x + 1) % 256)).getD y 0 =
        ((ms ++ [x]).count y) % 256 := by
    intro y hy
    by_cases hyx : y = x
    · rw [hyx, getD_set_self _ _ _ _ hxc, hcnt_x]
    · rw [getD_set_ne _ _ _ _ _ (fun h => hyx h.symm), hcnt y hy, hcnt_ne y hyx]
  have hrows_keep : ∀ y, y < NRESTS → ∀ k, k < ms.count y → k < XFULL →
      (cd.xhashslots.getD y []).getD k 0 = (restPositions (ms ++ [x]) y).getD k 0 := by
    intro y hy k hk hk'
    rw [hrow y hy k hk hk', restPositions_append]
    rw [List.getD_append _ _ _ _ (by rw [restPositions_length]; exact hk)]
  unfold collisiondata.addslot
  rw [hstored]
  by_cases hfull : XFULL ≤ ms.count x
  · rw [if_pos hfull]
    refine ⟨Iff.intro (fun h => Bool.noConfusion h)
        (fun hlt => absurd hfull (Nat.not_le.mpr hlt)), rfl,
      ⟨?_, hxl, hcounters, hrowlen, ?_⟩,
      fun hlt => absurd hfull (Nat.not_le.mpr hlt)⟩
    · rw [List.length_set]
      exact hcl
    · intro y hy k hk hk'
      apply hrows_keep y hy k ?_ hk'
      by_cases hyx : y = x
      · rw [hyx]
        rw [hyx, hcnt_x] at hk
        omega
      · rw [hcnt_ne y hyx] at hk
        exact hk
  · rw [if_neg hfull]
    have hltf : ms.count x < XFULL := Nat.lt_of_not_le hfull
    have hrowlenx : (cd.xhashslots.getD x []).length = XFULL := hrowlen x hx
    have hnewrow_len : ((cd.xhashslots.getD x []).set (ms.count x) ms.length).length =
        XFULL := by
      rw [List.length_set]
      exact hrowlenx
    have hnewrow_lt : ∀ k, k < ms.count x →
        ((cd.xhashslots.getD x []).set (ms.count x) ms.length).getD k 0 =
          (restPositions ms x).getD k 0 := by
      intro k hk
      rw [getD_set_ne _ _ _ _ _ (by omega)]
      exact hrow x hx k hk (by omega)
    have hnewrow_eq :
        ((cd.xhashslots.getD x []).set (ms.count x) ms.length).getD (ms.count x) 0 =
          ms.length := by
      rw [getD_set_self]
      rw [hrowlenx]
      exact hltf
    refine ⟨Iff.intro (fun _ => hltf) (fun _ => rfl), rfl,
      ⟨?_, ?_, hcounters, ?_, ?_⟩, fun hlt => ?_⟩
    · rw [List.length_set]
      exact hcl
    · rw [List.length_set]
      exact hxl
    · intro y hy
      by_cases hyx : y = x
      · rw [hyx, getD_set_self _ _ _ _ hxr]
        exact hnewrow_len
      · rw [getD_set_ne _ _ _ _ _ (fun h => hyx h.symm)]
        exact hrowlen y hy
    · intro y hy k hk hk'
      by_cases hyx : y = x
      · rw [hyx] at hk ⊢
        rw [getD_set_self _ _ _ _ hxr]
        rw [hcnt_x] at hk
        rcases Nat.lt_or_ge k (ms.count x) with hklt | hkge
        · rw [hnewrow_lt k hklt, restPositions_append,
            List.getD_append _ _ _ _ (by rw [restPositions_length]; exact hklt)]
        · have hkc : k = ms.count x := by omega
          subst hkc
          rw [hnewrow_eq, restPositions_append, beq_self_eq_true, if_pos rfl,
            List.getD_append_right _ _ _ _ (by rw [restPositions_length]),
            restPositions_length, Nat.sub_self]
          rfl
      · rw [getD_set_ne _ _ _ _ _ (fun h => hyx h.symm)]
        apply hrows_keep y hy k ?_ hk'
        rw [hcnt_ne y hyx] at hk
        exact hk
    · rw [getD_set_self _ _ _ _ hxr]
      unfold collisionPartners
      rw [Nat.sub_zero, drainAux_eq_map]
      apply List.ext_getElem
      · rw [List.length_map, List.length_range', restPositions_length]
      · intro i h1 h2
        rw [List.getElem_map, List.getElem_range']
        simp only [Nat.zero_add, Nat.one_mul]
        have hi : i < ms.count x := by
          rw [List.length_map, List.length_range'] at h1
          exact h1
        rw [hnewrow_lt i hi,
          List.getD_eq_getElem _ _ (by rw [restPositions_length]; exact hi)]

/-- Expected per-slot result of the finder on input list full: slot g is
accepted exactly when fewer than XFULL earlier slots carry the same rest
value, and its partners are the earlier positions carrying it. -/
def expectedResult (full : List Nat) (g : Nat) : Bool × List Nat :=
  if (full.take g).count (full.getD g 0) < XFULL then
    (true, restPositions (full.take g) (full.getD g 0))
  else (false, [])

/-- Running the finder from any state satisfying the invariant for
history ms yields, for every fed slot, exactly the expected result, and
preserves the invariant, as long as at most 256 slots are fed in total
(the uchar counters then never wrap during a read). -/
theorem runFinderAux_spec (rest : List Nat) :
    ∀ (ms : List Nat) (cd : collisiondata), cdInv ms cd →
      ms.length + rest.length ≤ 256 → (∀ x ∈ rest, x < NRESTS) →
      cdInv (ms ++ rest) (runFinderAux cd ms.length rest).1 ∧
        (runFinderAux cd ms.length rest).2.length = rest.length ∧
        ∀ i, i < rest.length →
          (runFinderAux cd ms.length rest).2.getD i (false, []) =
            expectedResult (ms ++ rest) (ms.length + i) := by
  induction rest with
  | nil =>
    intro ms cd hinv hlen hx
    refine ⟨by simpa using hinv, rfl, ?_⟩
    intro i hi
    exact absurd hi (by simp)
  | cons x rest ih =>
    intro ms cd hinv hlen hx
    have hms : ms.length ≤ 255 := by
      rw [List.length_cons] at hlen
      omega
    have hxN : x < NRESTS := hx x (List.mem_cons_self x rest)
    obtain ⟨hia, hin1, hinv', hpart⟩ := addslot_spec ms cd x hinv hxN hms
    have hlen1 : (ms ++ [x]).length = ms.length + 1 := by simp
    have hrec := ih (ms ++ [x]) (cd.addslot ms.length x).2.1 hinv'
      (by rw [hlen1]; rw [List.length_cons] at hlen; omega)
      (fun y hy => hx y (List.mem_cons_of_mem x hy))
    rw [hlen1] at hrec
    have hassoc : ms ++ [x] ++ rest = ms ++ x :: rest := by
      rw [List.append_assoc]
      rfl
    rw [hassoc] at hrec
    simp only [runFinderAux]
    refine ⟨hrec.1, ?_, ?_⟩
    · rw [List.length_cons, hrec.2.1]
      rfl
    · intro i hi
      cases i with
      | zero =>
        rw [List.getD_cons_zero]
        have hfull0 : (ms ++ x :: rest).getD ms.length 0 = x := by
          rw [List.getD_append_right _ _ _ _ (Nat.le_refl _), Nat.sub_self]
          rfl
        have htake0 : (ms ++ x :: rest).take ms.length = ms :=
          List.take_left' rfl
        unfold expectedResult
        rw [Nat.add_zero, hfull0, htake0]
        by_cases hacc : ms.count x < XFULL
        · rw [if_pos hacc]
          have hok : (cd.addslot ms.length x).1 = true := hia.mpr hacc
          rw [hok, if_pos rfl, hpart hacc]
        · rw [if_neg hacc]
          have hok : (cd.addslot ms.length x).1 = false := by
            cases hb : (cd.addslot ms.length x).1
            · rfl
            · exact absurd (hia.mp hb) hacc
          rw [hok, if_neg (by simp)]
      | succ i =>
        rw [List.getD_cons_succ]
        have hi' : i < rest.length := by
          rw [List.length_cons] at hi
          omega
        have := hrec.2.2 i hi'
        rw [this]
        congr 1
        omega

/-- Specialization of runFinderAux_spec to a bucket processed from a
fresh (cleared) finder with slots numbered from 0. -/
theorem runFinder_spec (xs : List Nat) (hlen : xs.length ≤ 256)
    (hx : ∀ x ∈ xs, x < NRESTS) :
    cdInv xs (runFinder xs).1 ∧
      (runFinder xs).2.length = xs.length ∧
      ∀ i, i < xs.length →
        (runFinder xs).2.getD i (false, []) = expectedResult xs i := by
  have h := runFinderAux_spec xs [] cdInit cdInit_inv (by simpa using hlen) hx
  simpa [runFinder] using h

/-- Counting within a longer front segment can only grow. -/
theorem count_take_mono (xs : List Nat) (i j v : Nat) (hij : i ≤ j) :
    (xs.take i).count v ≤ (xs.take j).count v := by
  have heq : (xs.take j).take i = xs.take i := by
    rw [List.take_take, Nat.min_def, if_pos hij]
  have hsub : List.Sublist (xs.take i) (xs.take j) := by
    rw [← heq]
    exact List.take_sublist i (xs.take j)
  exact hsub.count_le v

/-- Claim C10: over at most NSLOTS addslot calls after clear, a call is
rejected exactly when at least XFULL earlier calls used the same rest
value; the per-rest counter counts every call including rejected ones and
never wraps (the final counter equals the exact call count); and
rejection of a rest value is permanent for the rest of the bucket. -/
theorem collisiondata_counter_exact (xs : List Nat) (hlen : xs.length ≤ NSLOTS)
    (hx : ∀ x ∈ xs, x < NRESTS) :
    (∀ i, i < xs.length →
        (((runFinder xs).2.getD i (false, [])).1 = false ↔
          XFULL ≤ (xs.take i).count (xs.getD i 0))) ∧
      (∀ x, x < NRESTS → (runFinder xs).1.nxhashslots.getD x 0 = xs.count x) ∧
      (∀ i j, i ≤ j → j < xs.length → xs.getD j 0 = xs.getD i 0 →
        ((runFinder xs).2.getD i (false, [])).1 = false →
        ((runFinder xs).2.getD j (false, [])).1 = false) := by
  have h64 : NSLOTS = 64 := by norm_num [NSLOTS, SLOTBITS, RESTBITS]
  have h256 : xs.length ≤ 256 := by omega
  obtain ⟨hinv, hreslen, hres⟩ := runFinder_spec xs h256 hx
  have hfalse_iff : ∀ i, i < xs.length →
      (((runFinder xs).2.getD i (false, [])).1 = false ↔
        XFULL ≤ (xs.take i).count (xs.getD i 0)) := by
    intro i hi
    rw [hres i hi]
    unfold expectedResult
    by_cases hc : (xs.take i).count (xs.getD i 0) < XFULL
    · rw [if_pos hc]
      exact Iff.intro (fun hfb => Bool.noConfusion hfb)
        (fun hge => absurd hge (by omega))
    · rw [if_neg hc]
      exact Iff.intro (fun _ => Nat.le_of_not_lt hc) (fun _ => rfl)
  refine ⟨hfalse_iff, ?_, ?_⟩
  · intro x hxN
    rw [hinv.2.2.1 x hxN]
    apply Nat.mod_eq_of_lt
    have := List.count_le_length x xs
    omega
  · intro i j hij hj hsame hfi
    have hi : i < xs.length := Nat.lt_of_le_of_lt hij hj
    apply (hfalse_iff j hj).mpr
    rw [hsame]
    calc XFULL ≤ (xs.take i).count (xs.getD i 0) := (hfalse_iff i hi).mp hfi
      _ ≤ (xs.take j).count (xs.getD i 0) := count_take_mono xs i j _ hij

/-- Witness for claim C10 on a concrete bucket. -/
theorem collisiondata_counter_exact_witness :
    (([3, 5, 3] : List Nat).length ≤ NSLOTS ∧ ∀ x ∈ ([3, 5, 3] : List Nat), x < NRESTS) ∧
      ((∀ i, i < ([3, 5, 3] : List Nat).length →
          (((runFinder [3, 5, 3]).2.getD i (false, [])).1 = false ↔
            XFULL ≤ (([3, 5, 3] : List Nat).take i).count (([3, 5, 3] : List Nat).getD i 0))) ∧
        (∀ x, x < NRESTS → (runFinder [3, 5, 3]).1.nxhashslots.getD x 0 =
          ([3, 5, 3] : List Nat).count x) ∧
        (∀ i j, i ≤ j → j < ([3, 5, 3] : List Nat).length →
          ([3, 5, 3] : List Nat).getD j 0 = ([3, 5, 3] : List Nat).getD i 0 →
          ((runFinder [3, 5, 3]).2.getD i (false, [])).1 = false →
          ((runFinder [3, 5, 3]).2.getD j (false, [])).1 = false)) :=
  ⟨⟨by decide, by decide⟩,
    collisiondata_counter_exact [3, 5, 3] (by decide) (by decide)⟩

/-- Claim C2 (amended): over at most 256 fed slots (in the program a
bucket feeds at most NSLOTS), every accepted slot receives as partners
exactly the slots inserted before it with the same rest value, in
insertion order, and all of those partners were themselves accepted.
The bound is needed: at a 257th call the uchar counter has wrapped. -/
theorem collision_finder_partners (xs : List Nat) (hlen : xs.length ≤ 256)
    (hx : ∀ x ∈ xs, x < NRESTS) (i : Nat) (hi : i < xs.length)
    (hacc : ((runFinder xs).2.getD i (false, [])).1 = true) :
    ((runFinder xs).2.getD i (false, [])).2 =
      (List.range i).filter (fun j => xs.getD j 0 == xs.getD i 0) ∧
      ∀ j, j < i → xs.getD j 0 = xs.getD i 0 →
        ((runFinder xs).2.getD j (false, [])).1 = true := by
  obtain ⟨hinv, hreslen, hres⟩ := runFinder_spec xs hlen hx
  have hcnt_lt : (xs.take i).count (xs.getD i 0) < XFULL := by
    by_contra hge
    rw [hres i hi] at hacc
    unfold expectedResult at hacc
    rw [if_neg hge] at hacc
    exact Bool.noConfusion hacc
  constructor
  · rw [hres i hi]
    unfold expectedResult
    rw [if_pos hcnt_lt]
    show restPositions (xs.take i) (xs.getD i 0) = _
    unfold restPositions
    have hleni : (xs.take i).length = i := by
      rw [List.length_take, Nat.min_def, if_pos (Nat.le_of_lt hi)]
    rw [hleni]
    apply List.filter_congr
    intro j hj
    rw [List.mem_range] at hj
    have hgd : (xs.take i).getD j 0 = xs.getD j 0 := by
      rw [List.getD_eq_getElem?_getD, List.getElem?_take_of_lt hj,
        ← List.getD_eq_getElem?_getD]
    rw [hgd]
  · intro j hji hsame
    have hj : j < xs.length := Nat.lt_trans hji hi
    have hcj : (xs.take j).count (xs.getD j 0) < XFULL := by
      rw [hsame]
      calc (xs.take j).count (xs.getD i 0) ≤ (xs.take i).count (xs.getD i 0) :=
        count_take_mono xs j i _ (Nat.le_of_lt hji)
        _ < XFULL := hcnt_lt
    rw [hres j hj]
    unfold expectedResult
    rw [if_pos hcj]

/-- Witness for claim C2 (amended) on a concrete bucket: slot 2 collides
with slot 0 on rest value 3 and receives exactly [0] as partners. -/
theorem collision_finder_partners_witness :
    (([3, 5, 3] : List Nat).length ≤ 256 ∧ (∀ x ∈ ([3, 5, 3] : List Nat), x < NRESTS) ∧
        2 < ([3, 5, 3] : List Nat).length ∧
        ((runFinder [3, 5, 3]).2.getD 2 (false, [])).1 = true) ∧
      (((runFinder [3, 5, 3]).2.getD 2 (false, [])).2 =
        (List.range 2).filter
          (fun j => ([3, 5, 3] : List Nat).getD j 0 == ([3, 5, 3] : List Nat).getD 2 0) ∧
        ∀ j, j < 2 → ([3, 5, 3] : List Nat).getD j 0 = ([3, 5, 3] : List Nat).getD 2 0 →
          ((runFinder [3, 5, 3]).2.getD j (false, [])).1 = true) :=
  ⟨⟨by decide, by decide, by decide, by decide⟩,
    collision_finder_partners [3, 5, 3] (by decide) (by decide) 2 (by decide) (by decide)⟩


/-- One zero-rest call of the finder loop as a state transformer: the
pair carries the finder state and the next slot id. -/
def stepZero (p : collisiondata × Nat) : collisiondata × Nat :=
  ((p.1.addslot p.2 0).2.1, p.2 + 1)

/-- Result returned for one zero-rest call from a given state. -/
def zeroCallResult (p : collisiondata × Nat) : Bool × List Nat :=
  ((p.1.addslot p.2 0).1,
    if (p.1.addslot p.2 0).1 then
      collisionPartners ((p.1.addslot p.2 0).2.1.xhashslots.getD 0 []) 0
        (p.1.addslot p.2 0).2.2
    else [])

/-- The last result of feeding n + 1 zero-rest slots is the result of one
call from the state reached after n steps. -/
theorem runFinderAux_replicate_getD (n : Nat) :
    ∀ p : collisiondata × Nat,
      (runFinderAux p.1 p.2 (List.replicate (n + 1) 0)).2.getD n (false, []) =
        zeroCallResult (stepZero^[n] p) := by
  induction n with
  | zero =>
    intro p
    rfl
  | succ n ih =>
    intro p
    rw [List.replicate_succ]
    simp only [runFinderAux, List.getD_cons_succ]
    have := ih (stepZero p)
    rw [Function.iterate_succ_apply]
    exact this
  
/-- Counter evolution under zero-rest calls: slot ids advance one per
call and the rest-0 uchar counter holds the call count mod 256. -/
theorem stepZero_iterate_inv (k : Nat) :
    (stepZero^[k] (cdInit, 0)).2 = k ∧
      (stepZero^[k] (cdInit, 0)).1.nxhashslots.length = NRESTS ∧
      (stepZero^[k] (cdInit, 0)).1.nxhashslots.getD 0 0 = k % 256 := by
  induction k with
  | zero => exact ⟨rfl, by decide, by decide⟩
  | succ k ih =>
    obtain ⟨hs, hl, hc⟩ := ih
    rw [Function.iterate_succ_apply']
    have h0 : 0 < (stepZero^[k] (cdInit, 0)).1.nxhashslots.length := by
      rw [hl]
      norm_num [NRESTS, RESTBITS]
    refine ⟨by simp [stepZero, hs], ?_, ?_⟩
    · show ((stepZero^[k] (cdInit, 0)).1.addslot _ 0).2.1.nxhashslots.length = NRESTS
      unfold collisiondata.addslot
      split <;> (rw [List.length_set]; exact hl)
    · show ((stepZero^[k] (cdInit, 0)).1.addslot _ 0).2.1.nxhashslots.getD 0 0 = (k + 1) % 256
      unfold collisiondata.addslot
      split <;> (rw [getD_set_self _ _ _ _ h0, hc]; omega)

/-- The 257th zero-rest call (slot id 256) is accepted with an empty
partner list: its uchar counter has wrapped back to 0. -/
theorem runFinder_wrap_result :
    (runFinder (List.replicate 257 0)).2.getD 256 (false, []) = (true, []) := by
  have h := runFinderAux_replicate_getD 256 (cdInit, 0)
  have hrw : runFinder (List.replicate 257 0) =
      runFinderAux (cdInit, 0).1 (cdInit, 0).2 (List.replicate (256 + 1) 0) := rfl
  rw [hrw, h]
  obtain ⟨hs, hl, hc⟩ := stepZero_iterate_inv 256
  unfold zeroCallResult collisiondata.addslot
  rw [hc]
  have h2560 : (256 : Nat) % 256 = 0 := by norm_num
  rw [h2560, if_neg (by norm_num [XFULL, NSLOTS, SLOTBITS, RESTBITS])]
  rfl

/-- Counterexample to claim C2 as stated (without a bound on the number
of fed slots): after 256 calls with rest value 0 the uchar counter has
wrapped to 0, so the 257th call (slot id 256) is accepted yet receives no
partners, although slots were accepted before it with the same rest
value (slot 0 among them). -/
theorem collision_finder_wrap_counterexample :
    ¬ (∀ xs : List Nat, (∀ x ∈ xs, x < NRESTS) →
        ∀ i, i < xs.length →
          ((runFinder xs).2.getD i (false, [])).1 = true →
          ((runFinder xs).2.getD i (false, [])).2 =
            (List.range i).filter (fun j => xs.getD j 0 == xs.getD i 0)) := by
  intro h
  have hmem : ∀ x ∈ List.replicate 257 (0 : Nat), x < NRESTS := by
    intro x hx
    rw [List.eq_of_mem_replicate hx]
    norm_num [NRESTS, RESTBITS]
  have hlen : 256 < (List.replicate 257 (0 : Nat)).length := by
    rw [List.length_replicate]
    norm_num
  have hacc : ((runFinder (List.replicate 257 0)).2.getD 256 (false, [])).1 = true := by
    rw [runFinder_wrap_result]
  have h257 := h (List.replicate 257 0) hmem 256 hlen hacc
  simp only [runFinder_wrap_result] at h257
  have hg : ∀ j, (List.replicate 257 (0 : Nat)).getD j 0 = 0 := by
    intro j
    rw [List.getD_eq_getElem?_getD, List.getElem?_replicate]
    split <;> rfl
  have h0mem : (0 : Nat) ∈ (List.range 256).filter
      (fun j => (List.replicate 257 (0 : Nat)).getD j 0 ==
        (List.replicate 257 (0 : Nat)).getD 256 0) := by
    rw [List.mem_filter]
    refine ⟨?_, ?_⟩
    · rw [List.mem_range]
      norm_num
    · rw [hg 0, hg 256]
      rfl
  rw [← h257] at h0mem
  exact List.not_mem_nil 0 h0mem

/-- Embedding of htlayout::getxhash0 in the XINTREE build: the rest
nibble cached in the tree node (equi_miner.h lines 304-310). -/
def getxhash0 (s : slotData) : Nat := s.attr.xhash

/-- Embedding of htlayout::getxhash1 in the XINTREE build (lines
311-317): identical to getxhash0 there. -/
def getxhash1 (s : slotData) : Nat := s.attr.xhash

/-- Embedding of htlayout::equal: compare only the tail stored word
hash[prevhashunits - 1] (equi_miner.h lines 318-320). -/
def htlEqual (prevhashunits : Nat) (hash0 hash1 : List Nat) : Prop :=
  hash0.getD (prevhashunits - 1) 0 = hash1.getD (prevhashunits - 1) 0

instance (u : Nat) (a b : List Nat) : Decidable (htlEqual u a b) :=
  inferInstanceAs (Decidable (_ = _))

/-- Modelled from the spec: blake2b and equi.h are external to src, and
the spec treats blake2b as a black-box keyed PRF, so the remaining
stored hash words of two slots meeting in the same bucket range over
arbitrary word vectors; the only constraint the collision finder imposes
on a delivered pair is equal rest bits (getxhash0 / getxhash1, which in
the XINTREE build read the cached nibble).  A pair of slots is a
colliding pair exactly when those rest bits agree. -/
def collidingPair (s0 s1 : slotData) : Prop := getxhash0 s0 = getxhash0 s1

/-- Counterexample to claim C3 as stated: for a colliding pair with five
stored words (the production geometry at digit 2), equality of the tail
words does not decide equality of the full stored hashes - the two
hashes below agree on word 4 (and on the rest bits) but differ in
word 1. -/
theorem htlEqual_not_full_counterexample :
    ¬ (∀ (units : Nat), 1 ≤ units → ∀ s0 s1 : slotData,
        s0.hash.length = units → s1.hash.length = units →
        collidingPair s0 s1 →
        (htlEqual units s0.hash s1.hash ↔ s0.hash = s1.hash)) := by
  intro h
  have hfull := (h 5 (by norm_num) (slotData.mk (tree.mk 0 0 0 0) [0, 1, 0, 0, 0])
      (slotData.mk (tree.mk 0 0 0 0) [0, 0, 0, 0, 0]) rfl rfl rfl).mp (by decide)
  exact absurd hfull (by decide)

/-- Claim C3 (amended): for a colliding pair, full equality of the
stored hash words always implies tail-word equality (so htlayout::equal
never misses a full-hash duplicate), and when prevhashunits = 1 (the final digit
layer, where one word remains) the tail-word comparison is exact; at
intermediate layers with two or more stored words the converse fails. -/
theorem htlEqual_sound (units : Nat) (s0 s1 : slotData)
    (h0 : s0.hash.length = units) (h1 : s1.hash.length = units)
    (hcol : collidingPair s0 s1) :
    (s0.hash = s1.hash → htlEqual units s0.hash s1.hash) ∧
      (units = 1 → (htlEqual units s0.hash s1.hash ↔ s0.hash = s1.hash)) := by
  constructor
  · intro he
    unfold htlEqual
    rw [he]
  · intro hu
    subst hu
    constructor
    · intro he
      obtain ⟨a, ha⟩ := List.length_eq_one.mp h0
      obtain ⟨b, hb⟩ := List.length_eq_one.mp h1
      rw [ha, hb]
      have he' : a = b := by simpa [htlEqual, ha, hb] using he
      rw [he']
    · intro he
      unfold htlEqual
      rw [he]

/-- Witness for claim C3 (amended) at a concrete single-word pair. -/
theorem htlEqual_sound_witness :
    ((slotData.mk (tree.mk 0 0 0 3) [7]).hash.length = 1 ∧
        (slotData.mk (tree.mk 0 0 1 3) [7]).hash.length = 1 ∧
        collidingPair (slotData.mk (tree.mk 0 0 0 3) [7]) (slotData.mk (tree.mk 0 0 1 3) [7])) ∧
      (((slotData.mk (tree.mk 0 0 0 3) [7]).hash = (slotData.mk (tree.mk 0 0 1 3) [7]).hash →
          htlEqual 1 (slotData.mk (tree.mk 0 0 0 3) [7]).hash
            (slotData.mk (tree.mk 0 0 1 3) [7]).hash) ∧
        (1 = 1 →
          (htlEqual 1 (slotData.mk (tree.mk 0 0 0 3) [7]).hash
              (slotData.mk (tree.mk 0 0 1 3) [7]).hash ↔
            (slotData.mk (tree.mk 0 0 0 3) [7]).hash =
              (slotData.mk (tree.mk 0 0 1 3) [7]).hash))) :=
  ⟨⟨rfl, rfl, rfl⟩,
    htlEqual_sound 1 (slotData.mk (tree.mk 0 0 0 3) [7]) (slotData.mk (tree.mk 0 0 1 3) [7])
      rfl rfl rfl⟩
